import Mathlib

/-!
Shallow embedding of the Timeline & Overlay-Composition Engine of the
quran-gg-api repository (src/main.js), together with theorems checking the
frozen specification claims against it.

Durations and pixel coordinates are modelled as rationals (the JS code works
with IEEE doubles; all the arithmetic the claims mention is exact sums and
differences, which the rational model captures). Fallible code is modelled
with Except. The external collaborators (ffmpeg, canvas text metrics, the
network fetch) are parameters of the embedded functions.
-/

namespace QuranGG

/-- Timeline accumulator of buildVideoWithOverlays (src/main.js lines
374-380): currentTime starts at 0, each verse records the running time as
its start and then adds its audio duration; the final accumulator value is
the total duration. -/
def timelineAux : ℚ → List ℚ → List ℚ × ℚ
  | t, [] => ([], t)
  | t, d :: ds =>
    let r := timelineAux (t + d) ds
    (t :: r.1, r.2)

/-- The start-time list and total duration computed from the per-verse audio
durations, exactly as in buildVideoWithOverlays. -/
def computeTimeline (durations : List ℚ) : List ℚ × ℚ :=
  timelineAux 0 durations

/-- Start times of the verses. -/
def startTimes (durations : List ℚ) : List ℚ :=
  (computeTimeline durations).1

/-- Total program duration (the value passed to the -t output option). -/
def totalDuration (durations : List ℚ) : ℚ :=
  (computeTimeline durations).2

/-- End time of verse i, computed in the loop body of buildVideoWithOverlays
(line 402) as endTime = startTime + audioDurations[i]. -/
def endTimeAt (durations : List ℚ) (i : ℕ) : ℚ :=
  (startTimes durations).getD i 0 + durations.getD i 0

/-- The ffmpeg expression between(t,a,b) used in the enable clause of every
text overlay (src/main.js lines 412 and 421). ffmpeg documents between as
inclusive on both endpoints: it returns 1 iff a <= t and t <= b. -/
def ffBetween (t a b : ℚ) : Bool :=
  decide (a ≤ t) && decide (t ≤ b)

/-- Visibility of the two overlays of verse i at time t, as generated by
buildVideoWithOverlays: enable is between(t, startTime, endTime). -/
def visibleAt (durations : List ℚ) (i : ℕ) (t : ℚ) : Bool :=
  ffBetween t ((startTimes durations).getD i 0) (endTimeAt durations i)

/-- concatenateMedia (src/main.js lines 195-221): zero files is an error,
one file is returned unchanged, two or more produce the concatenated output
file in the working directory. The ffmpeg invocation itself is external;
the embedding records the returned path. -/
def concatenateMedia (filePaths : List String) (kind : String) (tempDir : String) :
    Except String String :=
  match filePaths with
  | [] => .error ("No " ++ kind ++ " files to concatenate")
  | [p] => .ok p
  | _ =>
    .ok (tempDir ++ "/concatenated_" ++ kind ++
      (if kind = "video" then ".mp4" else ".mp3"))

/-- Cleanup behaviour of processVideoRequest (src/main.js lines 479-528):
the pipeline body either succeeds or throws; on success the temp directory
is removed iff debug mode is off (lines 511-517); the catch block (lines
525-528) only logs and rethrows, performing no cleanup. The second
component records whether the temporary directory was removed. -/
def processVideoRequest (debug : Bool) (pipeline : Except String String) :
    Except String String × Bool :=
  match pipeline with
  | .ok out => (.ok out, !debug)
  | .error e => (.error e, false)

/-- Reference to one downloadable audio file in the request payload. -/
structure AudioFileRef where
  url : String
deriving DecidableEq

/-- One entry of recitation_files in the request payload. -/
structure RecitationFile where
  audio_files : List AudioFileRef
deriving DecidableEq

/-- Fixed host prepended to every recitation audio url (src/main.js line
154). -/
def versesAudioBase : String := "https://verses.quran.com/"

/-- The audio url fetched for one recitation entry (src/main.js line 154):
the base prefixed to audio_files[0].url. In JS an empty audio_files list
would make audio_files[0] undefined and crash; this is modelled as none. -/
def audioUrlFor (r : RecitationFile) : Option String :=
  r.audio_files.head?.map (fun a => versesAudioBase ++ a.url)

/-- The audio urls fetched for the whole request, in order (src/main.js
lines 151-169). -/
def audioUrls (rs : List RecitationFile) : List (Option String) :=
  rs.map audioUrlFor

/-- Greedy word-wrap loop shared by renderArabicTextImage (src/main.js lines
236-249) and renderTranslationTextImage (lines 304-317): the running line
accumulates word plus a trailing space; when the measured width of the
candidate exceeds maxWidth and the current line is non-empty, the line is
committed and the word starts a new line; the final line is always pushed.
The canvas measureText metric is the parameter measure. -/
def wrapLoop (measure : String → ℚ) (maxWidth : ℚ) :
    List String → String → List String
  | [], line => [line]
  | w :: ws, line =>
    let testLine := line ++ w ++ " "
    if measure testLine > maxWidth ∧ line ≠ "" then
      line :: wrapLoop measure maxWidth ws (w ++ " ")
    else
      wrapLoop measure maxWidth ws testLine

/-- Word-wrap of a word list starting from the empty line, as both
rasterizers do after splitting the text on single spaces. -/
def wrapLines (measure : String → ℚ) (maxWidth : ℚ) (words : List String) :
    List String :=
  wrapLoop measure maxWidth words ""

/-- The line string assembled from a chunk of words, in the exact
left-folded shape the wrap loop builds it (each word followed by one
space). -/
def lineOfWords (chunk : List String) : String :=
  chunk.foldl (fun acc w => acc ++ w ++ " ") ""

/-- renderArabicTextImage (src/main.js lines 226-273): canvas width 950,
wrap threshold 950 * 0.9, line height 100; returns the wrapped lines, the
reported content height lines.length * 100 (the value the function
returns), and the canvas height content + 100. -/
def renderArabicTextImage (measure : String → ℚ) (words : List String) :
    List String × ℚ × ℚ :=
  let lines := wrapLines measure ((950 : ℚ) * 9 / 10) words
  let totalHeight : ℚ := (lines.length : ℚ) * 100
  (lines, totalHeight, totalHeight + 100)

/-- renderTranslationTextImage (src/main.js lines 294-341): canvas width
950, wrap threshold 950 * 0.9, line height 45; returns the wrapped lines,
the reported content height lines.length * 45, and the canvas height
content + 100. -/
def renderTranslationTextImage (measure : String → ℚ) (words : List String) :
    List String × ℚ × ℚ :=
  let lines := wrapLines measure ((950 : ℚ) * 9 / 10) words
  let totalHeight : ℚ := (lines.length : ℚ) * 45
  (lines, totalHeight, totalHeight + 100)

/-- One overlay operation of the compositing filter graph built in
buildVideoWithOverlays (lines 400-425). Out-of-range height or timing
lookups are undefined (NaN) in JS and are modelled as none. -/
structure OverlayOp where
  baseLabel : String
  inputIndex : ℕ
  y : Option ℚ
  window : Option (ℚ × ℚ)
  outLabel : String
deriving DecidableEq

/-- Vertical position of the watermark: 1920 - 300 (src/main.js line
394). -/
def watermarkY : ℚ := 1920 - 300

/-- The per-verse overlay loop of buildVideoWithOverlays (lines 400-425):
for each verse index i it emits the translation overlay (input index
i + arabicCount + 4, y = watermarkY - (translationHeight + 100) - 50) and
the Arabic overlay (input index i + 4, y = translationY - (arabicHeight +
24)), both gated by enable between(t, start, end), chaining output labels.
No length validation is performed anywhere: missing list entries are JS
undefined and propagate as none. -/
def buildVerseOpsAux (ds th ah : List ℚ) (arabicCount : ℕ) :
    ℕ → ℕ → String → List OverlayOp
  | _, 0, _ => []
  | i, r + 1, prevLabel =>
    let transY : Option ℚ := (th.get? i).map (fun h => watermarkY - (h + 100) - 50)
    let window : Option (ℚ × ℚ) :=
      match (startTimes ds).get? i, ds.get? i with
      | some s, some d => some (s, s + d)
      | _, _ => none
    let transLabel := "trans" ++ toString i
    let op1 : OverlayOp :=
      ⟨prevLabel, i + arabicCount + 4, transY, window, transLabel⟩
    let arabicY : Option ℚ :=
      match transY, ah.get? i with
      | some ty, some a => some (ty - (a + 24))
      | _, _ => none
    let arabicLabel := "arabic" ++ toString i
    let op2 : OverlayOp := ⟨transLabel, i + 4, arabicY, window, arabicLabel⟩
    op1 :: op2 :: buildVerseOpsAux ds th ah arabicCount (i + 1) r arabicLabel

/-- The verse overlay portion of the filter graph for ayatCount verses,
starting from the with_watermark node exactly as the source loop does. -/
def buildFilterGraph (ayatCount : ℕ) (ds th ah : List ℚ)
    (arabicCount : ℕ) : List OverlayOp :=
  buildVerseOpsAux ds th ah arabicCount 0 ayatCount "with_watermark"

/-- The eligibility filter on background links (src/main.js line 172): the
JS test videoUrl.startsWith with the fixed pixabay cdn host, modelled as a
code-point prefix check. -/
def isPixabayLink (u : String) : Bool :=
  List.isPrefixOf "https://cdn.pixabay.com/".data u.data

/-- Background download loop of downloadFiles (src/main.js lines 171-185)
over the enumerated links: links not passing the pixabay filter are skipped
with no fetch and no error; an eligible link whose fetch fails aborts with
the video-download error; an eligible link whose fetch succeeds contributes
the path background_<index>.mp4. fetchOk models the outcome of the external
fetch per url. -/
def downloadBackgroundsAux (fetchOk : String → Bool) (tempDir : String) :
    List (ℕ × String) → Except String (List String)
  | [] => .ok []
  | (i, u) :: rest =>
    if isPixabayLink u then
      if fetchOk u then
        match downloadBackgroundsAux fetchOk tempDir rest with
        | .error e => .error e
        | .ok paths =>
          .ok ((tempDir ++ "/background_" ++ toString i ++ ".mp4") :: paths)
      else .error ("Video download failed for " ++ u)
    else downloadBackgroundsAux fetchOk tempDir rest

/-- Background download of downloadFiles including the final guard
(src/main.js line 187): an empty result list is the no-valid-background
error. -/
def downloadBackgrounds (fetchOk : String → Bool) (tempDir : String)
    (links : List String) : Except String (List String) :=
  match downloadBackgroundsAux fetchOk tempDir links.enum with
  | .error e => .error e
  | .ok paths =>
    if paths = [] then .error "No valid background video provided"
    else .ok paths

theorem timelineAux_fst_length (t : ℚ) (ds : List ℚ) :
    (timelineAux t ds).1.length = ds.length := by
  induction ds generalizing t with
  | nil => rfl
  | cons d ds ih => simp [timelineAux, ih]

theorem timelineAux_fst_getD (t : ℚ) (ds : List ℚ) (i : ℕ) (hi : i < ds.length) :
    (timelineAux t ds).1.getD i 0 = t + (ds.take i).sum := by
  induction ds generalizing t i with
  | nil => exact absurd hi (by simp)
  | cons d ds ih =>
    cases i with
    | zero => simp [timelineAux]
    | succ j =>
      have hj : j < ds.length := by simpa using hi
      simp only [timelineAux, List.getD_cons_succ, List.take_succ_cons,
        List.sum_cons]
      rw [ih (t + d) j hj]
      ring

theorem timelineAux_snd (t : ℚ) (ds : List ℚ) :
    (timelineAux t ds).2 = t + ds.sum := by
  induction ds generalizing t with
  | nil => simp [timelineAux]
  | cons d ds ih => simp [timelineAux, ih]; ring

theorem startTimes_getD (ds : List ℚ) (i : ℕ) (hi : i < ds.length) :
    (startTimes ds).getD i 0 = (ds.take i).sum := by
  have := timelineAux_fst_getD 0 ds i hi
  simpa [startTimes, computeTimeline] using this

theorem startTimes_length (ds : List ℚ) : (startTimes ds).length = ds.length :=
  timelineAux_fst_length 0 ds

theorem totalDuration_eq_sum (ds : List ℚ) : totalDuration ds = ds.sum := by
  have := timelineAux_snd 0 ds
  simpa [totalDuration, computeTimeline] using this

theorem endTimeAt_eq (ds : List ℚ) (i : ℕ) (hi : i < ds.length) :
    endTimeAt ds i = (ds.take (i + 1)).sum := by
  rw [endTimeAt, startTimes_getD ds i hi]
  rw [List.sum_take_succ ds i hi]
  simp [List.getD_eq_getElem?_getD, List.getElem?_eq_getElem hi]

/-- C1: the computed timeline satisfies start[i] = sum of durations 0..i-1,
end[i] = start[i] + duration[i] = sum of durations 0..i, start[i+1] = end[i]
for consecutive pairs, total duration = end[last] for a non-empty list, and
the concrete example durations [3, 4, 5] give starts [0, 3, 7], ends
[3, 7, 12] and total 12. -/
theorem C1_timeline_correct (ds : List ℚ) (hne : ds ≠ []) :
    (∀ i, i < ds.length →
      (startTimes ds).getD i 0 = (ds.take i).sum ∧
      endTimeAt ds i = (startTimes ds).getD i 0 + ds.getD i 0 ∧
      endTimeAt ds i = (ds.take (i + 1)).sum) ∧
    (∀ i, i + 1 < ds.length →
      (startTimes ds).getD (i + 1) 0 = endTimeAt ds i) ∧
    totalDuration ds = endTimeAt ds (ds.length - 1) ∧
    (startTimes [(3 : ℚ), 4, 5] = [0, 3, 7] ∧
      endTimeAt [(3 : ℚ), 4, 5] 0 = 3 ∧
      endTimeAt [(3 : ℚ), 4, 5] 1 = 7 ∧
      endTimeAt [(3 : ℚ), 4, 5] 2 = 12 ∧
      totalDuration [(3 : ℚ), 4, 5] = 12) := by
  refine ⟨?_, ?_, ?_, ?_⟩
  · intro i hi
    refine ⟨startTimes_getD ds i hi, rfl, endTimeAt_eq ds i hi⟩
  · intro i hi
    have hi' : i < ds.length := Nat.lt_of_succ_lt hi
    rw [startTimes_getD ds (i + 1) hi, endTimeAt_eq ds i hi']
  · have hpos : 0 < ds.length := List.length_pos.mpr hne
    have hlast : ds.length - 1 < ds.length := Nat.sub_lt hpos (by decide)
    rw [endTimeAt_eq ds (ds.length - 1) hlast, totalDuration_eq_sum]
    have : ds.length - 1 + 1 = ds.length := Nat.succ_pred_eq_of_pos hpos
    rw [this, List.take_length]
  · refine ⟨?_, ?_, ?_, ?_, ?_⟩ <;>
      norm_num [startTimes, computeTimeline, timelineAux, endTimeAt,
        totalDuration]

/-- C1 witness: the theorem applied to the concrete duration list
[3, 4, 5]. -/
theorem C1_timeline_correct_witness :
    (∀ i, i < ([(3 : ℚ), 4, 5] : List ℚ).length →
      (startTimes [(3 : ℚ), 4, 5]).getD i 0 = (([(3 : ℚ), 4, 5]).take i).sum ∧
      endTimeAt [(3 : ℚ), 4, 5] i =
        (startTimes [(3 : ℚ), 4, 5]).getD i 0 + ([(3 : ℚ), 4, 5]).getD i 0 ∧
      endTimeAt [(3 : ℚ), 4, 5] i = (([(3 : ℚ), 4, 5]).take (i + 1)).sum) ∧
    (∀ i, i + 1 < ([(3 : ℚ), 4, 5] : List ℚ).length →
      (startTimes [(3 : ℚ), 4, 5]).getD (i + 1) 0 = endTimeAt [(3 : ℚ), 4, 5] i) ∧
    totalDuration [(3 : ℚ), 4, 5] =
      endTimeAt [(3 : ℚ), 4, 5] (([(3 : ℚ), 4, 5] : List ℚ).length - 1) ∧
    (startTimes [(3 : ℚ), 4, 5] = [0, 3, 7] ∧
      endTimeAt [(3 : ℚ), 4, 5] 0 = 3 ∧
      endTimeAt [(3 : ℚ), 4, 5] 1 = 7 ∧
      endTimeAt [(3 : ℚ), 4, 5] 2 = 12 ∧
      totalDuration [(3 : ℚ), 4, 5] = 12) :=
  C1_timeline_correct [(3 : ℚ), 4, 5] (by simp)

/-- C4 counterexample: with zero verses the timeline computation of
buildVideoWithOverlays does not fail; it produces the empty start list and
total duration 0, exactly what the claim says must not happen. -/
theorem C4_empty_counterexample : computeTimeline ([] : List ℚ) = ([], 0) := rfl

/-- C4 amended: an empty verse list makes timeline computation succeed with
an empty timeline and total duration 0 (there is no EmptyTimelineError in
the code); the request still fails, but earlier, when concatenateMedia is
applied to the empty audio list and raises the no-media error. -/
theorem C4_empty_timeline_behavior :
    computeTimeline ([] : List ℚ) = ([], 0) ∧
    totalDuration ([] : List ℚ) = 0 ∧
    ∀ dir : String, concatenateMedia [] "audio" dir =
      .error "No audio files to concatenate" := by
  exact ⟨rfl, rfl, fun _ => rfl⟩

/-- C5: concatenateMedia on an empty path list fails with the no-media
error, and on a singleton list returns that path itself unchanged. -/
theorem C5_concat_contract (kind dir : String) :
    concatenateMedia [] kind dir =
      .error ("No " ++ kind ++ " files to concatenate") ∧
    ∀ p : String, concatenateMedia [p] kind dir = .ok p :=
  ⟨rfl, fun _ => rfl⟩

/-- C9 counterexample: a failing pipeline with the debug flag off leaves the
temporary directory in place (the cleanup flag is false), contradicting the
claim that cleanup happens on failure regardless of the debug flag. -/
theorem C9_no_cleanup_on_failure :
    (processVideoRequest false (.error "download failed")).2 = false := rfl

/-- C9 amended: cleanup runs exactly when the pipeline succeeded and the
debug flag is off; in particular no cleanup ever happens on the failure
path, and on success cleanup is skipped exactly when the debug flag is
set. -/
theorem C9_cleanup_behavior (debug : Bool) (r : Except String String) :
    ((processVideoRequest debug r).2 = true ↔
      (∃ out, r = .ok out) ∧ debug = false) ∧
    (processVideoRequest debug r).1 = r := by
  constructor
  · cases r with
    | ok out =>
      cases debug <;> simp [processVideoRequest]
    | error e =>
      cases debug <;> simp [processVideoRequest]
  · cases r <;> rfl

/-- C10: the audio url fetched for entry i is exactly
versesAudioBase ++ audio_files[0].url, and the url depends only on the
first element of audio_files: entries agreeing on the head give the same
url. -/
theorem C10_audio_url (rs : List RecitationFile) (i : ℕ) (hi : i < rs.length)
    (f : AudioFileRef) (rest : List AudioFileRef)
    (hhead : (rs.getD i ⟨[]⟩).audio_files = f :: rest) :
    (audioUrls rs).getD i none = some (versesAudioBase ++ f.url) ∧
    ∀ r r' : RecitationFile, r.audio_files.head? = r'.audio_files.head? →
      audioUrlFor r = audioUrlFor r' := by
  constructor
  · have hlen : i < (audioUrls rs).length := by simpa [audioUrls] using hi
    rw [List.getD_eq_getElem?_getD, List.getElem?_eq_getElem hlen]
    have : (audioUrls rs)[i] = audioUrlFor rs[i] := by
      simp [audioUrls]
    rw [this]
    have hget : rs[i] = rs.getD i ⟨[]⟩ := by
      rw [List.getD_eq_getElem?_getD, List.getElem?_eq_getElem hi]
      rfl
    rw [hget, audioUrlFor, hhead]
    rfl
  · intro r r' h
    simp [audioUrlFor, h]

/-- C10 witness: the theorem applied to a concrete request with two audio
files in the first entry; only the first is used. -/
theorem C10_audio_url_witness :
    (audioUrls [⟨[⟨"a.mp3"⟩, ⟨"b.mp3"⟩]⟩]).getD 0 none =
      some (versesAudioBase ++ "a.mp3") ∧
    ∀ r r' : RecitationFile, r.audio_files.head? = r'.audio_files.head? →
      audioUrlFor r = audioUrlFor r' :=
  C10_audio_url [⟨[⟨"a.mp3"⟩, ⟨"b.mp3"⟩]⟩] 0 (by decide) ⟨"a.mp3"⟩ [⟨"b.mp3"⟩] rfl

theorem visibleAt_iff (ds : List ℚ) (i : ℕ) (t : ℚ) :
    visibleAt ds i t = true ↔
      (startTimes ds).getD i 0 ≤ t ∧ t ≤ endTimeAt ds i := by
  simp [visibleAt, ffBetween]

theorem getD_nonneg_of_forall (ds : List ℚ) (hpos : ∀ d ∈ ds, 0 ≤ d)
    (j : ℕ) (hj : j < ds.length) : 0 ≤ ds.getD j 0 := by
  rw [List.getD_eq_getElem?_getD, List.getElem?_eq_getElem hj]
  exact hpos _ (List.getElem_mem hj)

theorem timeline_cover_aux (ds : List ℚ) (hne : ds ≠ [])
    (hpos : ∀ d ∈ ds, 0 ≤ d) :
    ∀ t0 t : ℚ, t0 ≤ t → t ≤ t0 + ds.sum →
      ∃ i, i < ds.length ∧ (timelineAux t0 ds).1.getD i 0 ≤ t ∧
        t ≤ (timelineAux t0 ds).1.getD i 0 + ds.getD i 0 := by
  induction ds with
  | nil => exact absurd rfl hne
  | cons d ds ih =>
    intro t0 t hlo hhi
    by_cases hc : t ≤ t0 + d
    · exact ⟨0, by simp, by simpa [timelineAux] using hlo,
        by simpa [timelineAux] using hc⟩
    · have hdsne : ds ≠ [] := by
        intro h
        rw [h] at hhi
        simp at hhi
        exact hc (by linarith)
      have hpos' : ∀ x ∈ ds, 0 ≤ x := fun x hx => hpos x (List.mem_cons_of_mem d hx)
      have hlo' : t0 + d ≤ t := le_of_not_le hc
      have hhi' : t ≤ (t0 + d) + ds.sum := by
        rw [List.sum_cons] at hhi
        linarith
      obtain ⟨i, hi, h1, h2⟩ := ih hdsne hpos' (t0 + d) t hlo' hhi'
      refine ⟨i + 1, by simpa using Nat.succ_lt_succ hi, ?_, ?_⟩
      · simpa [timelineAux] using h1
      · simpa [timelineAux] using h2

/-- C2 counterexample: the generated visibility window is the closed
interval of ffmpeg between, not the half-open one of the claim: for a verse
with start 2 and end 5 the predicate is true at t = 5 (which the half-open
claim excludes), and for the two verses of durations [3, 4] the two
predicates are simultaneously true at t = 3, so they do overlap. -/
theorem C2_window_counterexample :
    ffBetween 5 2 5 = true ∧
    ¬ ((2 : ℚ) ≤ 5 ∧ (5 : ℚ) < 5) ∧
    visibleAt [3, 4] 0 3 = true ∧
    visibleAt [3, 4] 1 3 = true := by
  refine ⟨?_, ?_, ?_, ?_⟩ <;>
    norm_num [ffBetween, visibleAt, endTimeAt, startTimes, computeTimeline,
      timelineAux]

/-- C2 amended: the visibility predicate of verse i is true exactly on the
closed window start[i] <= t <= end[i]; for nonnegative durations two
consecutive windows intersect exactly at their shared boundary instant
end[i] = start[i+1], and the windows together cover the whole closed
interval from 0 to total_duration. -/
theorem C2_visibility_windows (ds : List ℚ) (hne : ds ≠ [])
    (hpos : ∀ d ∈ ds, 0 ≤ d) :
    (∀ i t, visibleAt ds i t = true ↔
      (startTimes ds).getD i 0 ≤ t ∧ t ≤ endTimeAt ds i) ∧
    (∀ i, i + 1 < ds.length → ∀ t,
      (visibleAt ds i t = true ∧ visibleAt ds (i + 1) t = true) ↔
        t = endTimeAt ds i) ∧
    (∀ t : ℚ, 0 ≤ t → t ≤ totalDuration ds →
      ∃ i, i < ds.length ∧ visibleAt ds i t = true) := by
  refine ⟨fun i t => visibleAt_iff ds i t, ?_, ?_⟩
  · intro i hi1 t
    have hi : i < ds.length := Nat.lt_of_succ_lt hi1
    have hstart : (startTimes ds).getD (i + 1) 0 = endTimeAt ds i := by
      rw [startTimes_getD ds (i + 1) hi1, endTimeAt_eq ds i hi]
    have hdi : 0 ≤ ds.getD i 0 := getD_nonneg_of_forall ds hpos i hi
    have hdi1 : 0 ≤ ds.getD (i + 1) 0 := getD_nonneg_of_forall ds hpos (i + 1) hi1
    rw [visibleAt_iff, visibleAt_iff, hstart]
    unfold endTimeAt
    constructor
    · rintro ⟨⟨_, h2⟩, ⟨h3, _⟩⟩
      exact le_antisymm h2 h3
    · intro ht
      subst ht
      rw [hstart]
      unfold endTimeAt
      refine ⟨⟨by linarith, le_refl _⟩, le_refl _, by linarith⟩
  · intro t h0 htot
    rw [totalDuration_eq_sum] at htot
    obtain ⟨i, hi, h1, h2⟩ :=
      timeline_cover_aux ds hne hpos 0 t h0 (by simpa using htot)
    refine ⟨i, hi, ?_⟩
    rw [visibleAt_iff]
    exact ⟨by simpa [startTimes, computeTimeline] using h1,
      by simpa [startTimes, computeTimeline, endTimeAt] using h2⟩

/-- C2 witness: the amended theorem applied to the concrete duration list
[3, 4]. -/
theorem C2_visibility_windows_witness :
    (∀ i t, visibleAt [(3 : ℚ), 4] i t = true ↔
      (startTimes [(3 : ℚ), 4]).getD i 0 ≤ t ∧ t ≤ endTimeAt [(3 : ℚ), 4] i) ∧
    (∀ i, i + 1 < ([(3 : ℚ), 4] : List ℚ).length → ∀ t,
      (visibleAt [(3 : ℚ), 4] i t = true ∧
        visibleAt [(3 : ℚ), 4] (i + 1) t = true) ↔
        t = endTimeAt [(3 : ℚ), 4] i) ∧
    (∀ t : ℚ, 0 ≤ t → t ≤ totalDuration [(3 : ℚ), 4] →
      ∃ i, i < ([(3 : ℚ), 4] : List ℚ).length ∧
        visibleAt [(3 : ℚ), 4] i t = true) :=
  C2_visibility_windows [(3 : ℚ), 4] (by simp) (by norm_num)

theorem buildVerseOpsAux_length (ds th ah : List ℚ) (ac : ℕ) :
    ∀ (r i : ℕ) (prev : String),
      (buildVerseOpsAux ds th ah ac i r prev).length = 2 * r := by
  intro r
  induction r with
  | zero => intro i prev; rfl
  | succ r ih =>
    intro i prev
    simp only [buildVerseOpsAux, List.length_cons, ih]
    ring

theorem buildVerseOpsAux_none_mem (ds th ah : List ℚ) (ac : ℕ) :
    ∀ (r i : ℕ) (prev : String) (j : ℕ), i ≤ j → j < i + r →
      th.get? j = none →
      ∃ op ∈ buildVerseOpsAux ds th ah ac i r prev, op.y = none := by
  intro r
  induction r with
  | zero =>
    intro i prev j hij hjr
    omega
  | succ r ih =>
    intro i prev j hij hjr hnone
    by_cases hji : j = i
    · subst hji
      refine ⟨⟨prev, j + ac + 4, (th.get? j).map
          (fun h => watermarkY - (h + 100) - 50),
        match (startTimes ds).get? j, ds.get? j with
          | some s, some d => some (s, s + d)
          | _, _ => none,
        "trans" ++ toString j⟩, ?_, ?_⟩
      · simp [buildVerseOpsAux]
      · show (th.get? j).map (fun h => watermarkY - (h + 100) - 50) = none
        rw [hnone]
        rfl
    · have hij' : i + 1 ≤ j := by omega
      have hjr' : j < (i + 1) + r := by omega
      obtain ⟨op, hmem, hy⟩ := ih (i + 1) ("arabic" ++ toString i) j hij' hjr' hnone
      exact ⟨op, by simp [buildVerseOpsAux]; right; right; exact hmem, hy⟩

/-- C3 counterexample: with one verse but empty height lists (a
verse-count versus layer-count mismatch) the graph construction does not
fail at all: it emits the full two overlay operations for the verse, with
undefined (none) vertical positions, instead of raising a
LayerAlignmentError and emitting nothing. -/
theorem C3_mismatch_counterexample :
    (buildFilterGraph 1 [3] [] [] 0).length = 2 ∧
    (buildFilterGraph 1 [3] [] [] 0).map OverlayOp.y = [none, none] ∧
    (buildFilterGraph 1 [3] [] [] 0).map OverlayOp.window =
      [some (0, 0 + 3), some (0, 0 + 3)] := by
  refine ⟨rfl, rfl, rfl⟩

/-- C3 amended: buildVideoWithOverlays performs no length validation and
has no LayerAlignmentError; for every verse count and any height lists it
always emits exactly two overlay operations per verse, and whenever the
translation height list is shorter than the verse count some emitted
overlay carries an undefined (none) vertical position, silently mislabeling
geometry rather than failing. -/
theorem C3_no_alignment_validation (n : ℕ) (ds th ah : List ℚ) (ac : ℕ) :
    (buildFilterGraph n ds th ah ac).length = 2 * n ∧
    (th.length < n →
      ∃ op ∈ buildFilterGraph n ds th ah ac, op.y = none) := by
  constructor
  · exact buildVerseOpsAux_length ds th ah ac n 0 "with_watermark"
  · intro hlt
    exact buildVerseOpsAux_none_mem ds th ah ac n 0 "with_watermark" th.length
      (Nat.zero_le _) (by omega) (List.get?_eq_none.mpr (le_refl _))

/-- C3 witness: the amended theorem at one verse with empty height
lists. -/
theorem C3_no_alignment_validation_witness :
    (buildFilterGraph 1 [3] [] [] 0).length = 2 * 1 ∧
    (∃ op ∈ buildFilterGraph 1 [3] [] [] 0, op.y = none) :=
  ⟨(C3_no_alignment_validation 1 [3] [] [] 0).1,
    (C3_no_alignment_validation 1 [3] [] [] 0).2 (by decide)⟩

/-- C7 counterexample: for the translation rasterizer a one-line text has
content height 45 but canvas height 145 = 45 + 100, not 45 + 45: the
vertical margin is the fixed 100 pixels, which is not one line-height of
the translation instantiation. -/
theorem C7_translation_margin_counterexample :
    (renderTranslationTextImage (fun _ => 0) ["hi"]).2.1 = 45 ∧
    (renderTranslationTextImage (fun _ => 0) ["hi"]).2.2 = 145 ∧
    (145 : ℚ) ≠ 45 + 45 := by
  refine ⟨?_, ?_, by norm_num⟩ <;>
    norm_num [renderTranslationTextImage, wrapLines, wrapLoop]

/-- C7 amended: in both rasterizers the reported content height is the line
count times the line height (100 for Arabic, 45 for translation), and the
canvas height is the content height plus a fixed 100 pixel margin; the
margin coincides with one line-height only in the Arabic instantiation. -/
theorem C7_heights (measure : String → ℚ) (words : List String) :
    (renderArabicTextImage measure words).2.1 =
      ((renderArabicTextImage measure words).1.length : ℚ) * 100 ∧
    (renderArabicTextImage measure words).2.2 =
      (renderArabicTextImage measure words).2.1 + 100 ∧
    (renderTranslationTextImage measure words).2.1 =
      ((renderTranslationTextImage measure words).1.length : ℚ) * 45 ∧
    (renderTranslationTextImage measure words).2.2 =
      (renderTranslationTextImage measure words).2.1 + 100 :=
  ⟨rfl, rfl, rfl, rfl⟩

theorem downloadBackgroundsAux_congr (f g : String → Bool) (dir : String) :
    ∀ ps : List (ℕ × String),
      (∀ p ∈ ps, isPixabayLink p.2 = true → f p.2 = g p.2) →
      downloadBackgroundsAux f dir ps = downloadBackgroundsAux g dir ps := by
  intro ps
  induction ps with
  | nil => intro _; rfl
  | cons p rest ih =>
    intro h
    obtain ⟨i, u⟩ := p
    have hrest : ∀ q ∈ rest, isPixabayLink q.2 = true → f q.2 = g q.2 :=
      fun q hq => h q (List.mem_cons_of_mem _ hq)
    by_cases hp : isPixabayLink u = true
    · have hfg : f u = g u := h (i, u) (List.mem_cons_self _ _) hp
      simp only [downloadBackgroundsAux, hp, if_true, hfg, ih hrest]
    · simp only [downloadBackgroundsAux, hp, if_false, Bool.false_eq_true,
        ite_false, ih hrest]

theorem downloadBackgroundsAux_success (f : String → Bool) (dir : String) :
    ∀ ps : List (ℕ × String),
      (∀ p ∈ ps, isPixabayLink p.2 = true → f p.2 = true) →
      downloadBackgroundsAux f dir ps =
        .ok ((ps.filter (fun p => isPixabayLink p.2)).map
          (fun p => dir ++ "/background_" ++ toString p.1 ++ ".mp4")) := by
  intro ps
  induction ps with
  | nil => intro _; rfl
  | cons p rest ih =>
    intro h
    obtain ⟨i, u⟩ := p
    have hrest : ∀ q ∈ rest, isPixabayLink q.2 = true → f q.2 = true :=
      fun q hq => h q (List.mem_cons_of_mem _ hq)
    by_cases hp : isPixabayLink u = true
    · have hf : f u = true := h (i, u) (List.mem_cons_self _ _) hp
      simp only [downloadBackgroundsAux, hp, if_true, hf, ih hrest,
        List.filter_cons, List.map_cons]
    · simp only [downloadBackgroundsAux, hp, if_false, Bool.false_eq_true,
        ite_false, ih hrest, List.filter_cons]

theorem downloadBackgroundsAux_all_fail (f : String → Bool) (dir : String) :
    ∀ ps : List (ℕ × String),
      (∀ p ∈ ps, ¬(isPixabayLink p.2 = true ∧ f p.2 = true)) →
      downloadBackgroundsAux f dir ps = .ok [] ∨
        ∃ e, downloadBackgroundsAux f dir ps = .error e := by
  intro ps
  induction ps with
  | nil => intro _; exact .inl rfl
  | cons p rest ih =>
    intro h
    obtain ⟨i, u⟩ := p
    have hrest : ∀ q ∈ rest, ¬(isPixabayLink q.2 = true ∧ f q.2 = true) :=
      fun q hq => h q (List.mem_cons_of_mem _ hq)
    by_cases hp : isPixabayLink u = true
    · have hf : f u = false := by
        cases hfu : f u with
        | false => rfl
        | true => exact absurd ⟨hp, hfu⟩ (h (i, u) (List.mem_cons_self _ _))
      simp only [downloadBackgroundsAux, hp, if_true, hf, Bool.false_eq_true,
        ite_false]
      exact .inr ⟨_, rfl⟩
    · simp only [downloadBackgroundsAux, hp, if_false, Bool.false_eq_true,
        ite_false]
      exact ih hrest

theorem snd_mem_of_mem_enum {α : Type} {l : List α} {p : ℕ × α}
    (h : p ∈ l.enum) : p.2 ∈ l := by
  rw [List.mem_enum_iff_getElem?] at h
  exact List.getElem?_mem h

/-- C8: exactly the background links with the pixabay cdn prefix are
fetched: the result depends only on the fetch outcomes of the
prefix-matching links (other links are skipped silently, with no error and
no fetch); when every matching link fetches successfully the result
enumerates exactly the matching links, indexed by their original positions,
unless there are none, in which case the no-valid-background error is
raised; and when no link both matches the prefix and fetches successfully
the download fails. -/
theorem C8_background_filter (fetchOk : String → Bool) (dir : String)
    (links : List String) :
    (∀ g : String → Bool,
      (∀ u ∈ links, isPixabayLink u = true → fetchOk u = g u) →
      downloadBackgrounds fetchOk dir links = downloadBackgrounds g dir links) ∧
    ((∀ u ∈ links, isPixabayLink u = true → fetchOk u = true) →
      downloadBackgrounds fetchOk dir links =
        (if (links.enum.filter (fun p => isPixabayLink p.2)) = [] then
          .error "No valid background video provided"
        else
          .ok ((links.enum.filter (fun p => isPixabayLink p.2)).map
            (fun p => dir ++ "/background_" ++ toString p.1 ++ ".mp4")))) ∧
    ((∀ u ∈ links, ¬(isPixabayLink u = true ∧ fetchOk u = true)) →
      ∃ e, downloadBackgrounds fetchOk dir links = .error e) := by
  refine ⟨?_, ?_, ?_⟩
  · intro g hagree
    have h : ∀ p ∈ links.enum, isPixabayLink p.2 = true → fetchOk p.2 = g p.2 :=
      fun p hp => hagree p.2 (snd_mem_of_mem_enum hp)
    rw [downloadBackgrounds, downloadBackgrounds,
      downloadBackgroundsAux_congr fetchOk g dir links.enum h]
  · intro hall
    have h : ∀ p ∈ links.enum, isPixabayLink p.2 = true → fetchOk p.2 = true :=
      fun p hp => hall p.2 (snd_mem_of_mem_enum hp)
    rw [downloadBackgrounds, downloadBackgroundsAux_success fetchOk dir links.enum h]
    by_cases he : (links.enum.filter (fun p => isPixabayLink p.2)) = []
    · simp [he]
    · have : ((links.enum.filter (fun p => isPixabayLink p.2)).map
          (fun p => dir ++ "/background_" ++ toString p.1 ++ ".mp4")) ≠ [] := by
        simpa using he
      simp only [he, if_false, this, ite_false]
  · intro hnone
    have h : ∀ p ∈ links.enum, ¬(isPixabayLink p.2 = true ∧ fetchOk p.2 = true) :=
      fun p hp => hnone p.2 (snd_mem_of_mem_enum hp)
    rcases downloadBackgroundsAux_all_fail fetchOk dir links.enum h with hok | ⟨e, he⟩
    · exact ⟨"No valid background video provided", by
        rw [downloadBackgrounds, hok]; rfl⟩
    · exact ⟨e, by rw [downloadBackgrounds, he]⟩

/-- C8 witness: with one pixabay link at index 0, one foreign link, and a
fetch that succeeds everywhere, the download returns exactly the pixabay
path; moreover if nothing matches and fetches, the download fails. -/
theorem C8_background_filter_witness :
    downloadBackgrounds (fun _ => true) "T"
        ["https://cdn.pixabay.com/a.mp4", "https://example.com/b.mp4"] =
      (if ((["https://cdn.pixabay.com/a.mp4",
            "https://example.com/b.mp4"] : List String).enum.filter
            (fun p => isPixabayLink p.2)) = [] then
        .error "No valid background video provided"
      else
        .ok (((["https://cdn.pixabay.com/a.mp4",
            "https://example.com/b.mp4"] : List String).enum.filter
            (fun p => isPixabayLink p.2)).map
          (fun p => "T" ++ "/background_" ++ toString p.1 ++ ".mp4"))) :=
  (C8_background_filter (fun _ => true) "T"
    ["https://cdn.pixabay.com/a.mp4", "https://example.com/b.mp4"]).2.1
    (fun _ _ _ => rfl)

theorem append_space_ne_empty (s : String) : s ++ " " ≠ "" := by
  intro h
  have hlen := congrArg String.length h
  rw [String.length_append] at hlen
  have h1 : ("" : String).length = 0 := rfl
  have h2 : (" " : String).length = 1 := rfl
  rw [h1, h2] at hlen
  omega

theorem lineOfWords_concat (c : List String) (w : String) :
    lineOfWords (c ++ [w]) = lineOfWords c ++ w ++ " " := by
  simp [lineOfWords, List.foldl_append]

theorem lineOfWords_singleton (w : String) : lineOfWords [w] = w ++ " " := by
  show ("" ++ w) ++ " " = w ++ " "
  rw [String.empty_append]

theorem lineOfWords_ne_empty (c : List String) (hc : c ≠ []) :
    lineOfWords c ≠ "" := by
  rcases List.eq_nil_or_concat c with h | ⟨q, w, h⟩
  · exact absurd h hc
  · rw [h, List.concat_eq_append, lineOfWords_concat]
    exact append_space_ne_empty _

theorem wrapLoop_chunks (m : String → ℚ) (W : ℚ) :
    ∀ ws pre : List String, pre ≠ [] →
      ∃ chunks : List (List String), chunks.flatten = pre ++ ws ∧
        (∀ c ∈ chunks, c ≠ []) ∧
        wrapLoop m W ws (lineOfWords pre) = chunks.map lineOfWords := by
  intro ws
  induction ws with
  | nil =>
    intro pre hpre
    exact ⟨[pre], by simp, by simpa using hpre, by simp [wrapLoop]⟩
  | cons w ws ih =>
    intro pre hpre
    have hne : lineOfWords pre ≠ "" := lineOfWords_ne_empty pre hpre
    by_cases hbreak : m (lineOfWords pre ++ w ++ " ") > W
    · obtain ⟨chunks, hj, hcne, heq⟩ := ih [w] (by simp)
      refine ⟨pre :: chunks, by simp [hj], ?_, ?_⟩
      · intro c hc
        rcases List.mem_cons.mp hc with h | h
        · rw [h]; exact hpre
        · exact hcne c h
      · show (if m (lineOfWords pre ++ w ++ " ") > W ∧ lineOfWords pre ≠ "" then
            lineOfWords pre :: wrapLoop m W ws (w ++ " ")
          else wrapLoop m W ws (lineOfWords pre ++ w ++ " ")) =
            (pre :: chunks).map lineOfWords
        rw [if_pos ⟨hbreak, hne⟩, List.map_cons]
        rw [lineOfWords_singleton] at heq
        rw [heq]
    · obtain ⟨chunks, hj, hcne, heq⟩ := ih (pre ++ [w]) (by simp)
      refine ⟨chunks, by simpa using hj, hcne, ?_⟩
      show (if m (lineOfWords pre ++ w ++ " ") > W ∧ lineOfWords pre ≠ "" then
          lineOfWords pre :: wrapLoop m W ws (w ++ " ")
        else wrapLoop m W ws (lineOfWords pre ++ w ++ " ")) =
          chunks.map lineOfWords
      rw [if_neg (fun hand => hbreak hand.1)]
      rw [lineOfWords_concat] at heq
      exact heq

theorem wrapLines_chunks (m : String → ℚ) (W : ℚ) (words : List String) :
    ∃ chunks : List (List String), chunks.flatten = words ∧
      wrapLines m W words = chunks.map lineOfWords ∧
      (words ≠ [] → ∀ c ∈ chunks, c ≠ []) := by
  cases words with
  | nil =>
    refine ⟨[[]], by simp, ?_, by simp⟩
    show [""] = [lineOfWords []]
    rfl
  | cons w ws =>
    have hstep : wrapLines m W (w :: ws) = wrapLoop m W ws (lineOfWords [w]) := by
      show (if m ("" ++ w ++ " ") > W ∧ ("" : String) ≠ "" then
          ("" : String) :: wrapLoop m W ws (w ++ " ")
        else wrapLoop m W ws ("" ++ w ++ " ")) =
          wrapLoop m W ws (lineOfWords [w])
      rw [if_neg (fun hand => hand.2 rfl)]
      rfl
    obtain ⟨chunks, hj, hcne, heq⟩ := wrapLoop_chunks m W ws [w] (by simp)
    exact ⟨chunks, by simpa using hj, by rw [hstep, heq], fun _ => hcne⟩

theorem wrapLoop_mono_aux (m : String → ℚ)
    (hadd : ∀ a b, m (a ++ b) = m a + m b) (hnn : ∀ s, 0 ≤ m s)
    (W W2 : ℚ) (hW : W2 ≤ W) :
    ∀ ws : List String,
      (∀ lineB lineS : String, m lineB ≤ m lineS → (lineB ≠ "" → lineS ≠ "") →
        (wrapLoop m W ws lineB).length ≤ (wrapLoop m W2 ws lineS).length) ∧
      (∀ lineB lineS : String,
        (wrapLoop m W ws lineB).length ≤ (wrapLoop m W2 ws lineS).length + 1) := by
  intro ws
  induction ws with
  | nil =>
    constructor
    · intro lineB lineS _ _
      simp [wrapLoop]
    · intro lineB lineS
      simp [wrapLoop]
  | cons w ws ih =>
    obtain ⟨ihA, ihB⟩ := ih
    have hdecomp : ∀ s : String, m (s ++ w ++ " ") = m s + m w + m " " := by
      intro s
      rw [hadd, hadd]
    have hBdef : ∀ (V : ℚ) (line : String), wrapLoop m V (w :: ws) line =
        if m (line ++ w ++ " ") > V ∧ line ≠ "" then
          line :: wrapLoop m V ws (w ++ " ")
        else wrapLoop m V ws (line ++ w ++ " ") := fun _ _ => rfl
    constructor
    · intro lineB lineS hm hne
      rw [hBdef W lineB, hBdef W2 lineS]
      by_cases hB : m (lineB ++ w ++ " ") > W ∧ lineB ≠ ""
      · have hS : m (lineS ++ w ++ " ") > W2 ∧ lineS ≠ "" := by
          constructor
          · have h1 := hdecomp lineB
            have h2 := hdecomp lineS
            have := hB.1
            linarith
          · exact hne hB.2
        rw [if_pos hB, if_pos hS]
        simpa using Nat.succ_le_succ
          (ihA (w ++ " ") (w ++ " ") (le_refl _) (fun h => h))
      · rw [if_neg hB]
        by_cases hS : m (lineS ++ w ++ " ") > W2 ∧ lineS ≠ ""
        · rw [if_pos hS]
          simpa using ihB (lineB ++ w ++ " ") (w ++ " ")
        · rw [if_neg hS]
          refine ihA (lineB ++ w ++ " ") (lineS ++ w ++ " ") ?_ ?_
          · have h1 := hdecomp lineB
            have h2 := hdecomp lineS
            linarith
          · intro _
            exact append_space_ne_empty (lineS ++ w)
    · intro lineB lineS
      rw [hBdef W lineB, hBdef W2 lineS]
      by_cases hB : m (lineB ++ w ++ " ") > W ∧ lineB ≠ ""
      · rw [if_pos hB]
        by_cases hS : m (lineS ++ w ++ " ") > W2 ∧ lineS ≠ ""
        · rw [if_pos hS]
          have := ihA (w ++ " ") (w ++ " ") (le_refl _) (fun h => h)
          simp only [List.length_cons]
          omega
        · rw [if_neg hS]
          have := ihA (w ++ " ") (lineS ++ w ++ " ")
            (by have h2 := hdecomp lineS
                have h3 := hadd w " "
                have h4 := hnn lineS
                linarith)
            (fun _ => append_space_ne_empty (lineS ++ w))
          simp only [List.length_cons]
          omega
      · rw [if_neg hB]
        by_cases hS : m (lineS ++ w ++ " ") > W2 ∧ lineS ≠ ""
        · rw [if_pos hS]
          have := ihB (lineB ++ w ++ " ") (w ++ " ")
          simp only [List.length_cons]
          omega
        · rw [if_neg hS]
          exact ihB (lineB ++ w ++ " ") (lineS ++ w ++ " ")

/-- C6: the greedy word-wrap never splits a word: for every width the
produced lines are exactly the concatenations of a partition of the word
list into contiguous non-empty chunks; and under an additive nonnegative
width metric, with every word narrower than the smaller wrap width, the
number of lines is monotonically non-decreasing as the wrap width
decreases. -/
theorem C6_wrap_no_split_and_monotone (m : String → ℚ)
    (hadd : ∀ a b, m (a ++ b) = m a + m b) (hnn : ∀ s, 0 ≤ m s)
    (maxW maxW2 : ℚ) (hW : maxW2 ≤ maxW) (words : List String)
    (hwords : ∀ w ∈ words, m (w ++ " ") < maxW2) :
    (∀ W : ℚ, ∃ chunks : List (List String), chunks.flatten = words ∧
      wrapLines m W words = chunks.map lineOfWords ∧
      (words ≠ [] → ∀ c ∈ chunks, c ≠ [])) ∧
    (wrapLines m maxW words).length ≤ (wrapLines m maxW2 words).length := by
  refine ⟨fun W => wrapLines_chunks m W words, ?_⟩
  exact (wrapLoop_mono_aux m hadd hnn maxW maxW2 hW words).1 "" ""
    (le_refl _) (fun h => h)

/-- C6 witness: the theorem applied to the constant-zero metric, widths 2
and 1, and the single word list. -/
theorem C6_wrap_no_split_and_monotone_witness :
    (∀ W : ℚ, ∃ chunks : List (List String), chunks.flatten = ["ab"] ∧
      wrapLines (fun _ => 0) W ["ab"] = chunks.map lineOfWords ∧
      (["ab"] ≠ ([] : List String) → ∀ c ∈ chunks, c ≠ [])) ∧
    (wrapLines (fun _ => 0) 2 ["ab"]).length ≤
      (wrapLines (fun _ => 0) 1 ["ab"]).length :=
  C6_wrap_no_split_and_monotone (fun _ => 0) (fun _ _ => by norm_num)
    (fun _ => le_refl 0) 2 1 (by norm_num) ["ab"]
    (fun _ _ => by norm_num)

end QuranGG
